import Mathlib

/-!
Verification of the crawl-and-download core of the open-med-data scripts
(`crawl_cms_hcpcs.py`, `download_loinc.py`, `download_all_loinc.py`,
`download_nlm_genes.py`).  Python string and URL library operations are
embedded as executable Lean functions on `String`/`List Char`; the
stateful crawl engine is embedded as a state-passing function whose
network interaction is an oracle and whose externally visible actions
(page fetches, file fetches, chunk writes, form posts) are recorded in a
trace.
-/

/-! ## String primitives (models of Python `str` operations) -/

/-- Model of checking that one character list is an initial segment of
another (used to embed Python substring tests). -/
def listIsPre : List Char → List Char → Bool
  | [], _ => true
  | _ :: _, [] => false
  | a :: as, b :: bs => a == b && listIsPre as bs

/-- Case-insensitive initial-segment test (ASCII case folding, as used by
`re.IGNORECASE` on the ASCII patterns in the scripts). -/
def listIsPreCI : List Char → List Char → Bool
  | [], _ => true
  | _ :: _, [] => false
  | a :: as, b :: bs => a.toLower == b.toLower && listIsPreCI as bs

/-- Model of Python `pat in s` restricted to character lists. -/
def listHasSub (pat : List Char) : List Char → Bool
  | [] => pat.isEmpty
  | c :: cs => listIsPre pat (c :: cs) || listHasSub pat cs

/-- Model of the Python substring test `pat in s`. -/
def strContains (s pat : String) : Bool := listHasSub pat.toList s.toList

/-- Model of Python `s.startswith(pre)`. -/
def strStartsWith (s pre : String) : Bool := listIsPre pre.toList s.toList

/-- Model of Python `s.endswith(suf)`. -/
def strEndsWith (s suf : String) : Bool := listIsPre suf.toList.reverse s.toList.reverse

/-- Model of Python `s.lower()` (ASCII case folding; all URL and header
strings handled by the scripts are ASCII). -/
def strToLower (s : String) : String := String.mk (s.toList.map Char.toLower)

/-- Fuel-driven worker for `strSplitOn`; the fuel is the input length, which
always suffices because each step consumes at least one character. -/
def splitOnGo (sep : List Char) : Nat → List Char → List Char → List (List Char)
  | _, [], cur => [cur.reverse]
  | 0, cs, cur => [cur.reverse ++ cs]
  | Nat.succ fl, c :: cs, cur =>
    if listIsPre sep (c :: cs) then
      cur.reverse :: splitOnGo sep fl (List.drop sep.length (c :: cs)) []
    else
      splitOnGo sep fl cs (c :: cur)

/-- Model of Python `s.split(sep)` for a non-empty separator. -/
def strSplitOn (s sep : String) : List String :=
  match sep.toList with
  | [] => [s]
  | c :: cs => (splitOnGo (c :: cs) s.toList.length s.toList []).map String.mk

/-- Model of `'/'.join`-style path joining as done by `os.path.join` on the
relative path segments the scripts produce. -/
def joinWith (sep : String) : List String → String
  | [] => ""
  | [x] => x
  | x :: y :: xs => x ++ sep ++ joinWith sep (y :: xs)

/-! ## URL parsing (model of `urllib.parse` for http(s) URLs) -/

/-- Result of `urllib.parse.urlparse`, restricted to the fields the scripts
read (`scheme`, `netloc`, `path`, `query`). -/
structure UrlParts where
  scheme : String
  netloc : String
  path : String
  query : String
deriving DecidableEq, Repr

/-- Model of `urllib.parse.urlparse` for absolute http(s) URLs and for
scheme-less strings (which Python treats as pure paths).  Fragments are not
modelled; none of the scripts use them. -/
def urlparse (url : String) : UrlParts :=
  match strSplitOn url "://" with
  | [_] =>
    let (p, q) := url.toList.span (fun c => !(c == '?'))
    { scheme := "", netloc := "", path := String.mk p, query := String.mk (q.drop 1) }
  | s :: r :: rs =>
    let rest := joinWith "://" (r :: rs)
    let cs := rest.toList
    let (netl, after) := cs.span (fun c => !(c == '/') && !(c == '?'))
    let (p, q) := after.span (fun c => !(c == '?'))
    { scheme := s, netloc := String.mk netl, path := String.mk p, query := String.mk (q.drop 1) }
  | [] =>
    { scheme := "", netloc := "", path := url, query := "" }

/-- The directory part of a path: everything up to and including the last
slash (`/` when the path has no slash). -/
def dirPath (p : String) : String :=
  let rev := p.toList.reverse
  let after := rev.dropWhile (fun c => !(c == '/'))
  if after.isEmpty then "/" else String.mk after.reverse

/-- Model of `os.path.basename`: the part of the path after the last slash. -/
def basename (p : String) : String :=
  String.mk ((p.toList.reverse.takeWhile (fun c => !(c == '/'))).reverse)

/-- Model of `urllib.parse.urljoin` for the reference shapes the scripts
feed it: absolute URLs, protocol-relative, root-relative and simple
relative references (no `.`/`..` normalization). -/
def urljoin (base href : String) : String :=
  if strContains href "://" then href
  else if strStartsWith href "//" then (urlparse base).scheme ++ ":" ++ href
  else if strStartsWith href "/" then
    (urlparse base).scheme ++ "://" ++ (urlparse base).netloc ++ href
  else if href == "" then base
  else
    let b := urlparse base
    b.scheme ++ "://" ++ b.netloc ++ dirPath b.path ++ href

/-- Strip leading and trailing slashes, as `path.strip('/')` does. -/
def stripSlashes (s : String) : String :=
  String.mk (((s.toList.dropWhile (fun c => c == '/')).reverse.dropWhile
    (fun c => c == '/')).reverse)

/-! ## The raw-text URL regex (model of the `re.findall` secondary pass)

Both crawlers scan the raw page text with
`re.findall(r'https?://[^\s<>"\x27\x7b\x7d|\\^\x60\[\]]+\.(zip|pdf|...)', text, re.IGNORECASE)`.
The pattern has a single capturing group around the extension alternation,
so each element of the `findall` result is the text matched by that group,
not the whole URL.  The matcher below reproduces the engine's behaviour on
this pattern: leftmost non-overlapping matches, a greedy character class
with backtracking to the rightmost dot followed by an extension
alternative, alternatives tried left to right. -/

/-- Characters excluded by the character class of the URL pattern
(the ASCII whitespace characters of `\s` together with
`< > " ' | \ ^ `  [ ]` and the two braces, written by code point). -/
def reStopChar (c : Char) : Bool :=
  c.val == 32 || c.val == 9 || c.val == 10 || c.val == 13 || c.val == 11 || c.val == 12 ||
  c.val == 60 || c.val == 62 || c.val == 34 || c.val == 39 || c.val == 123 || c.val == 125 ||
  c.val == 124 || c.val == 92 || c.val == 94 || c.val == 96 || c.val == 91 || c.val == 93

/-- Try the extension alternatives in pattern order at the given position,
case-insensitively; return the matched text and its length.  The
alternation lists carry `xlsx` before `xls` and `docx` before `doc`,
mirroring the greedy `xlsx?`/`docx?` of the pattern. -/
def matchExtAlt (alts : List String) (cs : List Char) : Option (String × Nat) :=
  match alts with
  | [] => none
  | a :: rest =>
    if listIsPreCI a.toList cs then some (String.mk (cs.take a.toList.length), a.toList.length)
    else matchExtAlt rest cs

/-- Match `https?://` case-insensitively; return the number of characters
consumed and the remaining input. -/
def matchScheme (cs : List Char) : Option (Nat × List Char) :=
  if listIsPreCI "http".toList cs then
    let cs4 := cs.drop 4
    if listIsPreCI "s://".toList cs4 then some (8, cs.drop 8)
    else if listIsPreCI "://".toList cs4 then some (7, cs.drop 7)
    else none
  else none

/-- Backtracking step of the greedy class: starting from the longest run
`j` of class characters, find the largest `j ≥ 1` such that the character
after the run is a dot followed by an extension alternative.  Returns the
run length, the group text and the extension length. -/
def bestSplit (alts : List String) (ds : List Char) : Nat → Option (Nat × String × Nat)
  | 0 => none
  | Nat.succ k =>
    match (match ds.get? (k + 1) with
           | some c => if c == '.' then matchExtAlt alts (ds.drop (k + 2)) else none
           | none => none) with
    | some (g, el) => some (k + 1, g, el)
    | none => bestSplit alts ds k

/-- Match the whole URL pattern at the start of the input; return the text
captured by the extension group and the total number of characters
consumed by the match. -/
def matchUrlAt (alts : List String) (cs : List Char) : Option (String × Nat) :=
  match matchScheme cs with
  | none => none
  | some (sc, rest) =>
    let m := (rest.takeWhile (fun c => !(reStopChar c))).length
    match bestSplit alts rest m with
    | none => none
    | some (j, g, el) => some (g, sc + j + 1 + el)

/-- Fuel-driven scan for leftmost non-overlapping matches; the fuel is the
input length.  Each returned element is the text captured by the
extension group (what Python's `re.findall` returns for a pattern with one
group). -/
def findallGo (alts : List String) : Nat → List Char → List String
  | 0, _ => []
  | _, [] => []
  | Nat.succ fl, c :: rest =>
    match matchUrlAt alts (c :: rest) with
    | some (g, n) => g :: findallGo alts fl (rest.drop (n - 1))
    | none => findallGo alts fl rest

/-- Model of the `re.findall` call of the secondary raw-text pass. -/
def findallUrlExt (alts : List String) (text : String) : List String :=
  findallGo alts text.toList.length text.toList

/-! ## Extension and keyword allow-lists -/

/-- `DOWNLOAD_EXTENSIONS` of `crawl_cms_hcpcs.py`. -/
def cmsDownloadExts : List String :=
  [".zip", ".pdf", ".txt", ".csv", ".xlsx", ".xls", ".docx", ".doc", ".xml"]

/-- `DOWNLOAD_EXTENSIONS` of `download_loinc.py`. -/
def loincDownloadExts : List String :=
  [".zip", ".pdf", ".txt", ".csv", ".xlsx", ".xls", ".docx", ".doc", ".xml",
   ".db", ".sqlite", ".owl", ".rdf"]

/-- Extension alternatives of the cms raw-text pattern
`(zip|pdf|txt|csv|xlsx?|docx?|xml)`, greedy options expanded. -/
def cmsRegexExts : List String :=
  ["zip", "pdf", "txt", "csv", "xlsx", "xls", "docx", "doc", "xml"]

/-- Extension alternatives of the loinc raw-text pattern. -/
def loincRegexExts : List String :=
  ["zip", "pdf", "txt", "csv", "xlsx", "xls", "docx", "doc", "xml",
   "db", "sqlite", "owl", "rdf"]

/-- Topical path keywords of the cms crawler. -/
def cmsKeywords : List String := ["hcpcs", "alpha-numeric", "coding"]

/-- Topical path keywords of the loinc crawler. -/
def loincKeywords : List String := ["download", "file", "loinc", "complete"]

/-- `any(path.endswith(ext) for ext in DOWNLOAD_EXTENSIONS)` on an already
lowercased path. -/
def hasDownloadExt (exts : List String) (path : String) : Bool :=
  exts.any (fun e => strEndsWith path e)

/-! ## Link extraction (`find_downloadable_links`) -/

/-- The direct-file condition of the cms anchor loop: the lowercased path of
the resolved URL ends in an allow-listed extension. -/
def cmsExtCond (full : String) : Bool :=
  hasDownloadExt cmsDownloadExts (strToLower (urlparse full).path)

/-- The page-candidate condition of the cms anchor loop: the lowercased
path contains a topical keyword and the URL is not yet visited.  The
condition does not exclude URLs that also satisfy `cmsExtCond`. -/
def cmsKwCond (full : String) (visited : List String) : Bool :=
  cmsKeywords.any (fun k => strContains (strToLower (urlparse full).path) k) &&
  !(visited.contains full)

/-- The `<a href>` loop of `crawl_cms_hcpcs.find_downloadable_links`:
each href is resolved against the page URL and appended once for each of
the two independent conditions it satisfies. -/
def cmsAnchorLinks (baseUrl : String) (visited : List String) : List String → List String
  | [] => []
  | href :: rest =>
    let full := urljoin baseUrl href
    (if cmsExtCond full then [full] else []) ++
    (if cmsKwCond full visited then [full] else []) ++
    cmsAnchorLinks baseUrl visited rest

/-- Order-preserving deduplication, modelling the `list(set(links))`
collapse (the scripts only use membership in the result). -/
def dedupGo : List String → List String → List String
  | [], _ => []
  | x :: xs, seen =>
    if seen.contains x then dedupGo xs seen else x :: dedupGo xs (x :: seen)

/-- Model of `list(set(links))` up to order. -/
def pyDedup (ls : List String) : List String := dedupGo ls []

/-- `crawl_cms_hcpcs.find_downloadable_links`: anchor scan, then the
raw-text regex pass filtered by `startswith('http')`, then set
deduplication. -/
def cms_find_downloadable_links (anchors : List String) (pageText : String)
    (baseUrl : String) (visited : List String) : List String :=
  let fromAnchors := cmsAnchorLinks baseUrl visited anchors
  let fromText := (findallUrlExt cmsRegexExts pageText).filter
    (fun m => strStartsWith m "http")
  pyDedup (fromAnchors ++ fromText)

/-- The direct-file condition of the loinc anchor loop. -/
def loincExtCond (full : String) : Bool :=
  hasDownloadExt loincDownloadExts (strToLower (urlparse full).path)

/-- The page-candidate condition of the loinc anchor loop. -/
def loincKwCond (full : String) (visited : List String) : Bool :=
  loincKeywords.any (fun k => strContains (strToLower (urlparse full).path) k) &&
  !(visited.contains full)

/-- The `<a href>` loop of `download_loinc.find_downloadable_links`
(empty hrefs are skipped there). -/
def loincAnchorLinks (baseUrl : String) (visited : List String) : List String → List String
  | [] => []
  | href :: rest =>
    if href == "" then loincAnchorLinks baseUrl visited rest
    else
      let full := urljoin baseUrl href
      (if loincExtCond full then [full] else []) ++
      (if loincKwCond full visited then [full] else []) ++
      loincAnchorLinks baseUrl visited rest

/-- The `<form action>` loop of `download_loinc.find_downloadable_links`:
a non-empty action resolved against the page URL is added when the
resolved URL mentions `download`. -/
def loincFormLinks (baseUrl : String) : List String → List String
  | [] => []
  | action :: rest =>
    if action == "" then loincFormLinks baseUrl rest
    else
      let fullA := urljoin baseUrl action
      (if strContains (strToLower fullA) "download" then [fullA] else []) ++
      loincFormLinks baseUrl rest

/-- `download_loinc.find_downloadable_links`: anchor scan, raw-text pass
(the loinc variant skips tuple matches, which never occur, and filters by
`startswith('http')`), form-action scan, then set deduplication. -/
def loinc_find_downloadable_links (anchors : List String) (formActions : List String)
    (pageText : String) (baseUrl : String) (visited : List String) : List String :=
  let fromAnchors := loincAnchorLinks baseUrl visited anchors
  let fromText := (findallUrlExt loincRegexExts pageText).filter
    (fun m => strStartsWith m "http")
  let fromForms := loincFormLinks baseUrl formActions
  pyDedup (fromAnchors ++ fromText ++ fromForms)

/-! ## Filename sanitization (`re.sub(r'[^\w\.-]', '_', filename)`) -/

/-- Model of Python's `\w` character class for `str` patterns on the
ASCII and Latin-1 range: the ASCII word characters, the Latin-1 letters
(code points 0xC0-0xFF except the signs 0xD7 and 0xF7), and the Latin-1
letter and numeric characters 0xAA, 0xB2, 0xB3, 0xB5, 0xB9, 0xBA, 0xBC,
0xBD, 0xBE.  Python's `\w` also covers higher Unicode ranges that no
input of this development reaches. -/
def pythonWordChar (c : Char) : Bool :=
  c.isAlphanum || c == '_' ||
  (decide (192 ≤ c.toNat) && decide (c.toNat ≤ 255) && c.toNat != 215 && c.toNat != 247) ||
  c.toNat == 170 || c.toNat == 178 || c.toNat == 179 || c.toNat == 181 ||
  c.toNat == 185 || c.toNat == 186 || c.toNat == 188 || c.toNat == 189 || c.toNat == 190

/-- `re.sub(r'[^\w\.-]', '_', filename)`: every character not matched by
`\w`, `.` or `-` is replaced by an underscore. -/
def sanitizeFilename (s : String) : String :=
  String.mk (s.toList.map (fun c =>
    if pythonWordChar c || c == '.' || c == '-' then c else '_'))

/-- `crawl_cms_hcpcs.get_filename_from_url`. -/
def cms_get_filename_from_url (url : String) (dflt : String) : String :=
  let parsed := urlparse url
  let filename := basename parsed.path
  let filename :=
    if filename == "" || !(strContains filename ".") then
      if strContains (strToLower parsed.query) "file" then
        (strSplitOn parsed.query "=").getLastD parsed.query
      else dflt
    else filename
  sanitizeFilename filename

/-- `download_loinc.get_filename_from_url`.  The `split('file=')[1]` step
can raise `IndexError` in Python when the query contains `file` but not
`file=`; the model returns the empty slice there, which the trailing
empty-name check then replaces by the default. -/
def loinc_get_filename_from_url (url : String) (dflt : String) : String :=
  let parsed := urlparse url
  let f0 := basename parsed.path
  let f1 :=
    if f0 == "" || f0 == "/" then
      if strContains parsed.query "file" then
        (strSplitOn ((strSplitOn parsed.query "file=").getD 1 "") "&").getD 0 ""
      else dflt
    else f0
  let f2 := sanitizeFilename f1
  if f2 == "" then dflt else f2

/-! ## HTTP retry loops (`get_page` / `make_request`) -/

/-- A fetched page as the crawl code reads it: the `Content-Type` header,
the hrefs of the `<a href>` anchors, the action attributes of the
`<form>` elements, and the raw document text `str(soup)`. -/
structure PageResp where
  contentType : String
  anchors : List String
  formActions : List String
  text : String
deriving Repr

/-- `crawl_cms_hcpcs.get_page`: the loop over `range(retries)`, counting
down the remaining iterations.  `att` gives each attempt's outcome
(`none` = exception).  Returns the result, the list of sleep durations
performed between attempts, and the number of attempts made. -/
def cms_get_page_go (att : Nat → Option PageResp) (retries : Nat) :
    Nat → List Nat → Option PageResp × List Nat × Nat
  | 0, sleeps => (none, sleeps, retries - 0)
  | Nat.succ rem, sleeps =>
    let attempt := retries - Nat.succ rem
    match att attempt with
    | some r => (some r, sleeps, attempt + 1)
    | none =>
      if attempt < retries - 1 then cms_get_page_go att retries rem (sleeps ++ [2])
      else (none, sleeps, attempt + 1)

/-- `crawl_cms_hcpcs.get_page` with its `retries` argument (3 at every
call site); the constant inter-attempt delay is `time.sleep(2)`. -/
def cms_get_page (att : Nat → Option PageResp) (retries : Nat) :
    Option PageResp × List Nat × Nat :=
  cms_get_page_go att retries retries []

/-- `download_loinc.get_page`: same loop, but the delay before retrying is
`time.sleep(2 ** attempt)`. -/
def loinc_get_page_go (att : Nat → Option PageResp) (retries : Nat) :
    Nat → List Nat → Option PageResp × List Nat × Nat
  | 0, sleeps => (none, sleeps, retries - 0)
  | Nat.succ rem, sleeps =>
    let attempt := retries - Nat.succ rem
    match att attempt with
    | some r => (some r, sleeps, attempt + 1)
    | none =>
      if attempt < retries - 1 then
        loinc_get_page_go att retries rem (sleeps ++ [2 ^ attempt])
      else (none, sleeps, attempt + 1)

/-- `download_loinc.get_page` with its `retries` argument (3 everywhere). -/
def loinc_get_page (att : Nat → Option PageResp) (retries : Nat) :
    Option PageResp × List Nat × Nat :=
  loinc_get_page_go att retries retries []

/-- `download_nlm_genes.make_request`: same loop shape as the cms variant
(constant `time.sleep(2)` between attempts), returning the parsed JSON
payload abstracted by a type parameter. -/
def nlm_make_request_go {α : Type} (att : Nat → Option α) (retries : Nat) :
    Nat → List Nat → Option α × List Nat × Nat
  | 0, sleeps => (none, sleeps, retries - 0)
  | Nat.succ rem, sleeps =>
    let attempt := retries - Nat.succ rem
    match att attempt with
    | some r => (some r, sleeps, attempt + 1)
    | none =>
      if attempt < retries - 1 then nlm_make_request_go att retries rem (sleeps ++ [2])
      else (none, sleeps, attempt + 1)

/-- `download_nlm_genes.make_request` with its `retries` argument (3). -/
def nlm_make_request {α : Type} (att : Nat → Option α) (retries : Nat) :
    Option α × List Nat × Nat :=
  nlm_make_request_go att retries retries []

/-! ## Crawl state, effects and the network oracle -/

/-- Externally visible actions of the engine, in order. -/
inductive Effect where
  | pageFetch (url : String)
  | fileFetch (url : String)
  | fileWrite (path : String) (bytes : Nat)
  | formPost (url : String)
deriving DecidableEq, Repr

/-- The module-level mutable state of a run: `VISITED_URLS`,
`DOWNLOADED_FILES`, and the recorded action trace. -/
structure CrawlState where
  visited : List String
  downloaded : List String
  trace : List Effect
deriving DecidableEq, Repr

/-- The outcome of the `requests.get` inside `download_file`: an exception
(`err`), or a response with its `Content-Type`, its body as a list of
chunk sizes, and an optional index at which writing the body to disk
raises a filesystem error. -/
inductive FileResp where
  | err
  | ok (contentType : String) (chunks : List Nat) (writeFailAt : Option Nat)
deriving Repr

/-- The network oracle: `page` abstracts a `get_page` result (after its
internal retries), `file` the download request, and `termsLinks` the links
extracted from the response of the terms-acceptance form POST. -/
structure Net where
  page : String → Option PageResp
  file : String → FileResp
  termsLinks : String → List String

/-- The write effects of streaming a chunk list to `filepath`. -/
def chunkWrites (filepath : String) (chunks : List Nat) : List Effect :=
  chunks.map (fun b => Effect.fileWrite filepath b)

/-- Number of page-fetch events for `u` in a trace. -/
def pageFetchCount (tr : List Effect) (u : String) : Nat :=
  (tr.filter (fun e => match e with
    | Effect.pageFetch v => v == u
    | _ => false)).length

/-- `true` when a list of effects contains no page fetch. -/
def noPageFetch (l : List Effect) : Bool :=
  l.all (fun e => match e with
    | Effect.pageFetch _ => false
    | _ => true)

/-! ## Downloaders (`download_file`) -/

/-- `crawl_cms_hcpcs.download_file`: skip when the URL is in
`DOWNLOADED_FILES`; otherwise fetch, stream all chunks to disk, and only
then add the URL to `DOWNLOADED_FILES`; any exception returns `False`
with the set untouched.  This variant has no HTML/content-type check. -/
def cms_download_file (net : Net) (url filepath : String) (st : CrawlState) :
    Bool × CrawlState :=
  if st.downloaded.contains url then (false, st)
  else
    match net.file url with
    | FileResp.err => (false, { st with trace := st.trace ++ [Effect.fileFetch url] })
    | FileResp.ok _ct chunks writeFailAt =>
      let st1 : CrawlState := { st with trace := st.trace ++ [Effect.fileFetch url] }
      match writeFailAt with
      | some i =>
        (false, { st1 with trace := st1.trace ++ chunkWrites filepath (chunks.take i) })
      | none =>
        let st2 : CrawlState := { st1 with trace := st1.trace ++ chunkWrites filepath chunks }
        (true, { st2 with downloaded := url :: st2.downloaded })

/-- `download_loinc.download_file`: like the cms variant plus the
HTML-response heuristic — a response whose `Content-Type` contains
`text/html` with a body smaller than 10000 bytes is skipped before
anything is written. -/
def loinc_download_file (net : Net) (url filepath : String) (st : CrawlState) :
    Bool × CrawlState :=
  if st.downloaded.contains url then (false, st)
  else
    match net.file url with
    | FileResp.err => (false, { st with trace := st.trace ++ [Effect.fileFetch url] })
    | FileResp.ok ct chunks writeFailAt =>
      let st1 : CrawlState := { st with trace := st.trace ++ [Effect.fileFetch url] }
      if strContains (strToLower ct) "text/html" && decide (chunks.sum < 10000) then
        (false, st1)
      else
        match writeFailAt with
        | some i =>
          (false, { st1 with trace := st1.trace ++ chunkWrites filepath (chunks.take i) })
        | none =>
          let st2 : CrawlState := { st1 with trace := st1.trace ++ chunkWrites filepath chunks }
          (true, { st2 with downloaded := url :: st2.downloaded })

/-- `download_all_loinc.download_file`: deduplicates by the existence of
the destination file on disk (`existing`), not by a URL set; its HTML
heuristic threshold is 50000 bytes.  The time-derived fallback name is
modelled by a fixed token. -/
def all_loinc_download_file (net : Net) (existing : List String) (url : String)
    (filename : Option String) (st : CrawlState) : Bool × CrawlState :=
  let fname :=
    match filename with
    | some f => f
    | none =>
      let b := basename ((strSplitOn url "?").getD 0 url)
      if b == "" || b == "/" then "file_t" else b
  let filepath := "loinc/" ++ fname
  if existing.contains filepath then (false, st)
  else
    match net.file url with
    | FileResp.err => (false, { st with trace := st.trace ++ [Effect.fileFetch url] })
    | FileResp.ok ct chunks writeFailAt =>
      let st1 : CrawlState := { st with trace := st.trace ++ [Effect.fileFetch url] }
      if strContains (strToLower ct) "text/html" && decide (chunks.sum < 50000) then
        (false, st1)
      else
        match writeFailAt with
        | some i =>
          (false, { st1 with trace := st1.trace ++ chunkWrites filepath (chunks.take i) })
        | none =>
          let st2 : CrawlState := { st1 with trace := st1.trace ++ chunkWrites filepath chunks }
          (true, st2)

/-! ## Crawl engines -/

/-- The subdirectory the cms crawler derives from a file link's path:
`DOWNLOAD_DIR` joined with the path segments of the link minus the
filename. -/
def cms_subdir (linkPath : String) : String :=
  let up := stripSlashes linkPath
  if up == "" then "cms.gov"
  else joinWith "/" ("cms.gov" :: (strSplitOn up "/").dropLast)

/-- The first pass of `crawl_cms_hcpcs.crawl_page` over the extracted
links: every link whose lowercased path ends in an allow-listed extension
is handed to `download_file`. -/
def cms_file_pass (net : Net) : List String → CrawlState → CrawlState
  | [], st => st
  | link :: rest, st =>
    if hasDownloadExt cmsDownloadExts (strToLower (urlparse link).path) then
      let filename := cms_get_filename_from_url link "file"
      let filepath := cms_subdir (urlparse link).path ++ "/" ++ filename
      cms_file_pass net rest (cms_download_file net link filepath st).2
    else cms_file_pass net rest st

/-- `crawl_cms_hcpcs.crawl_page`: return at once when `depth > max_depth`
or the URL is already visited; otherwise mark visited, fetch, either hand
a direct file to the downloader, or extract links, download the file
links, and recurse at `depth + 1` into every unvisited link whose netloc
mentions `cms.gov`.  The structural `fuel` argument bounds the recursion
(any `fuel > max_depth - depth` is exact, since each descent raises
`depth` by one and the engine returns as soon as `depth > max_depth`). -/
def cms_crawl_page (net : Net) : Nat → String → Nat → Nat → CrawlState → CrawlState
  | 0, _, _, _, st => st
  | Nat.succ fuel, url, depth, maxDepth, st =>
    if depth > maxDepth then st
    else if st.visited.contains url then st
    else
      let st1 : CrawlState := { st with visited := url :: st.visited }
      let st2 : CrawlState := { st1 with trace := st1.trace ++ [Effect.pageFetch url] }
      match net.page url with
      | none => st2
      | some resp =>
        let ct := strToLower resp.contentType
        if hasDownloadExt cmsDownloadExts (strToLower (urlparse url).path) ||
           strContains ct "application/" || strContains ct "pdf" then
          (cms_download_file net url
            ("cms.gov/" ++ cms_get_filename_from_url url
              ("file_" ++ toString st2.downloaded.length)) st2).2
        else
          let links := cms_find_downloadable_links resp.anchors resp.text url st2.visited
          let st3 := cms_file_pass net links st2
          links.foldl (fun s link =>
            if !(s.visited.contains link) &&
               strContains (urlparse link).netloc "cms.gov" then
              cms_crawl_page net fuel link (depth + 1) maxDepth s
            else s) st3

/-! ## LOINC authenticator and crawl -/

/-- `LOGIN_URL` of `download_loinc.py`. -/
def loincLoginUrl : String := "https://loinc.org/wp-login.php"

/-- `USERNAME` of the loinc scripts. -/
def loincUsername : String := "cze"

/-- The login success heuristic of `download_loinc.login` (line 88): the
response URL contains `wp-admin` or `file-access`, or the lowercased
response body contains the lowercased username. -/
def loinc_login_success (respUrl respText : String) : Bool :=
  strContains respUrl "wp-admin" || strContains respUrl "file-access" ||
  strContains (strToLower respText) (strToLower loincUsername)

/-- The login success heuristic of `download_all_loinc.login_and_get_session`
(line 71): the lowercased body contains the lowercased username, or the
response URL contains `downloads`. -/
def all_loinc_login_success (respUrl respText : String) : Bool :=
  strContains (strToLower respText) (strToLower loincUsername) ||
  strContains respUrl "downloads"

/-- The success predicate as the specification words it: the response URL
differs from the login URL, or the body mentions the username, or the
response URL contains a known post-login path fragment.
Modelled from the spec for comparison with `loinc_login_success`. -/
def spec_login_success (respUrl respText : String) : Bool :=
  respUrl != loincLoginUrl ||
  strContains (strToLower respText) (strToLower loincUsername) ||
  strContains respUrl "wp-admin" || strContains respUrl "file-access"

/-- `download_loinc.accept_terms_and_download`: unconditionally `get_page`
the page URL once more; without a form in the response, return no links;
otherwise harvest the form fields (pure data assembly, lines 244-281,
with no observable action) and POST, the links extracted from the POST
response being supplied by the oracle. -/
def loinc_accept_terms (net : Net) (pageUrl : String) (st : CrawlState) :
    List String × CrawlState :=
  let st1 : CrawlState := { st with trace := st.trace ++ [Effect.pageFetch pageUrl] }
  match net.page pageUrl with
  | none => ([], st1)
  | some resp =>
    match resp.formActions with
    | [] => ([], st1)
    | action :: _ =>
      let submitUrl := if action == "" then pageUrl else urljoin pageUrl action
      let st2 : CrawlState := { st1 with trace := st1.trace ++ [Effect.formPost submitUrl] }
      (net.termsLinks pageUrl, st2)

/-- The loop of `crawl_download_page` (and of its terms-acceptance tail)
that downloads every link whose lowercased path ends in an allow-listed
extension. -/
def loinc_file_pass (net : Net) : List String → CrawlState → CrawlState
  | [], st => st
  | link :: rest, st =>
    if hasDownloadExt loincDownloadExts (strToLower (urlparse link).path) then
      let filename := loinc_get_filename_from_url link "file"
      loinc_file_pass net rest (loinc_download_file net link ("loinc/" ++ filename) st).2
    else loinc_file_pass net rest st

/-- `download_loinc.crawl_download_page`: return when the URL is already
visited; otherwise mark visited, fetch, either hand a direct file to the
downloader, or extract links, download the file links, and — when the URL
mentions `file-access` or `download` — run the terms-acceptance flow
(which fetches the same URL again) and download its file links too. -/
def loinc_crawl_download_page (net : Net) (url : String) (st : CrawlState) : CrawlState :=
  if st.visited.contains url then st
  else
    let st1 : CrawlState := { st with visited := url :: st.visited }
    let st2 : CrawlState := { st1 with trace := st1.trace ++ [Effect.pageFetch url] }
    match net.page url with
    | none => st2
    | some resp =>
      let ct := strToLower resp.contentType
      if hasDownloadExt loincDownloadExts (strToLower (urlparse url).path) ||
         strContains ct "application/" || strContains ct "pdf" ||
         strContains ct "zip" || strContains ct "octet-stream" then
        (loinc_download_file net url
          ("loinc/" ++ loinc_get_filename_from_url url
            ("file_" ++ toString st2.downloaded.length)) st2).2
      else
        let links := loinc_find_downloadable_links resp.anchors resp.formActions
          resp.text url st2.visited
        let st3 := loinc_file_pass net links st2
        if strContains url "file-access" || strContains (strToLower url) "download" then
          let res := loinc_accept_terms net url st3
          loinc_file_pass net res.1 res.2
        else st3

/-! ## Derived predicates and concrete inputs used by the theorems -/

/-- The output alphabet `[A-Za-z0-9._-]` named by the specification's
sanitization rule. -/
def sanAllowedChar (c : Char) : Bool :=
  c.isAlphanum || c == '.' || c == '_' || c == '-'

/-- A trace in which every URL has been fetched as a page at most once,
and only URLs recorded in the Visited Set have been fetched as pages. -/
def GoodTrace (st : CrawlState) : Prop :=
  ∀ u, pageFetchCount st.trace u ≤ 1 ∧
    (pageFetchCount st.trace u ≠ 0 → st.visited.contains u = true)

/-- The empty run-start state (all sets created empty). -/
def emptyState : CrawlState := { visited := [], downloaded := [], trace := [] }

/-- An oracle whose every page is a plain HTML page with no anchors, no
forms and empty text, and whose downloads fail. -/
def plainHtmlNet : Net :=
  { page := fun _ =>
      some { contentType := "text/html", anchors := [], formActions := [], text := "" },
    file := fun _ => FileResp.err,
    termsLinks := fun _ => [] }

/-- The loinc download page URL (`DOWNLOAD_PAGE_URL`), the first seed the
loinc crawler visits. -/
def loincDownloadPageUrl : String := "https://loinc.org/file-access/download-id/470626/"

/-- An oracle whose download responses are small HTML bodies delivered in
one 100-byte chunk, with no network or filesystem error. -/
def smallHtmlFileNet : Net :=
  { page := fun _ => none,
    file := fun _ => FileResp.ok "text/html" [100] none,
    termsLinks := fun _ => [] }

/-- A page whose only occurrence of a downloadable URL is inside a script
block, invisible to the anchor scan. -/
def scriptOnlyText : String :=
  "<script>var u = \"https://www.cms.gov/files/doc.pdf\";</script>"

/-- A cms URL whose path both ends in an allow-listed extension and
contains a topical keyword. -/
def hcpcsPdfUrl : String := "https://www.cms.gov/hcpcs/codes.pdf"

/-- A resource URL whose basename contains the Latin-1 letter at code
point 233. -/
def accentedUrl : String :=
  "https://www.cms.gov/files/" ++ String.mk [Char.ofNat 233] ++ ".pdf"

/-- A state that has already visited one cms page. -/
def visitedAState : CrawlState :=
  { visited := ["https://www.cms.gov/a"], downloaded := [], trace := [] }

/-- A state that has already visited one loinc page. -/
def visitedLState : CrawlState :=
  { visited := ["https://loinc.org/a"], downloaded := [], trace := [] }

/-- A state that has already downloaded one file URL. -/
def dlState : CrawlState :=
  { visited := [], downloaded := ["https://www.cms.gov/d.zip"], trace := [] }

/-- An HTML page response holding one zip anchor. -/
def zipResp : PageResp :=
  { contentType := "text/html", anchors := ["/hcpcs/data.zip"],
    formActions := [], text := "" }

/-- An oracle serving a single HTML page holding one zip anchor. -/
def zipAnchorNet : Net :=
  { page := fun _ => some zipResp,
    file := fun _ => FileResp.err,
    termsLinks := fun _ => [] }

/-- A cms page URL at the depth bound in the depth-bound scenario. -/
def hcpcsSeedUrl : String := "https://www.cms.gov/hcpcs/page"

/-- The zip link the page of `zipAnchorNet` carries, resolved. -/
def hcpcsZipUrl : String := "https://www.cms.gov/hcpcs/data.zip"

/-! ## Helper lemmas -/

theorem contains_iff_mem (l : List String) (x : String) : l.contains x = true ↔ x ∈ l :=
  List.elem_iff

theorem contains_false_iff (l : List String) (x : String) : l.contains x = false ↔ x ∉ l := by
  rw [← contains_iff_mem]
  cases h : l.contains x <;> simp

theorem contains_cons (y x : String) (l : List String) :
    (y :: l).contains x = (x == y || l.contains x) := rfl

theorem pageFetchCount_append (a b : List Effect) (u : String) :
    pageFetchCount (a ++ b) u = pageFetchCount a u + pageFetchCount b u := by
  simp [pageFetchCount, List.filter_append]

theorem pageFetchCount_single (url u : String) :
    pageFetchCount [Effect.pageFetch url] u = if url == u then 1 else 0 := by
  by_cases h : url == u <;> simp [pageFetchCount, List.filter, h]

theorem noPageFetch_count (ext : List Effect) (u : String) (h : noPageFetch ext = true) :
    pageFetchCount ext u = 0 := by
  induction ext with
  | nil => rfl
  | cons e rest ih =>
    simp only [noPageFetch, List.all_cons, Bool.and_eq_true] at h
    obtain ⟨he, hr⟩ := h
    cases e with
    | pageFetch v => simp at he
    | fileFetch v =>
      simpa [pageFetchCount, List.filter] using ih (by simpa [noPageFetch] using hr)
    | fileWrite p b =>
      simpa [pageFetchCount, List.filter] using ih (by simpa [noPageFetch] using hr)
    | formPost v =>
      simpa [pageFetchCount, List.filter] using ih (by simpa [noPageFetch] using hr)

theorem noPageFetch_chunkWrites (fp : String) (chunks : List Nat) :
    noPageFetch (chunkWrites fp chunks) = true := by
  simp [noPageFetch, chunkWrites, List.all_map, Function.comp]

theorem noPageFetch_append (a b : List Effect) :
    noPageFetch (a ++ b) = (noPageFetch a && noPageFetch b) := by
  simp [noPageFetch, List.all_append]

theorem foldl_preserve {α σ : Type} (f : σ → α → σ) (P : σ → Prop)
    (h : ∀ s a, P s → P (f s a)) :
    ∀ (l : List α) (s : σ), P s → P (l.foldl f s)
  | [], _, hs => hs
  | a :: l, s, hs => foldl_preserve f P h l (f s a) (h s a hs)

theorem foldl_id {α σ : Type} (f : σ → α → σ) (h : ∀ s a, f s a = s) :
    ∀ (l : List α) (s : σ), l.foldl f s = s
  | [], _ => rfl
  | a :: l, s => by rw [List.foldl_cons, h s a]; exact foldl_id f h l s

theorem dedupGo_not_seen :
    ∀ (ls seen : List String) (x : String), x ∈ dedupGo ls seen → seen.contains x = false := by
  intro ls
  induction ls with
  | nil => intro seen x hx; simp [dedupGo] at hx
  | cons y ys ih =>
    intro seen x hx
    by_cases hy : y ∈ seen
    · exact ih seen x (by simpa [dedupGo, hy] using hx)
    · have hy2 : seen.contains y = false := contains_false_iff seen y |>.mpr hy
      simp only [dedupGo, hy2, Bool.false_eq_true, if_false, List.mem_cons] at hx
      rcases hx with rfl | hx
      · exact hy2
      · have h2 := ih (y :: seen) x hx
        rw [contains_cons] at h2
        exact (Bool.or_eq_false_iff.mp h2).2

theorem dedupGo_nodup : ∀ (ls seen : List String), (dedupGo ls seen).Nodup := by
  intro ls
  induction ls with
  | nil => intro seen; simp [dedupGo]
  | cons y ys ih =>
    intro seen
    by_cases hy : y ∈ seen
    · simpa [dedupGo, hy] using ih seen
    · have hy2 : seen.contains y = false := contains_false_iff seen y |>.mpr hy
      simp only [dedupGo, hy2, Bool.false_eq_true, if_false]
      refine List.nodup_cons.mpr ⟨fun hmem => ?_, ih (y :: seen)⟩
      have := dedupGo_not_seen ys (y :: seen) y hmem
      rw [contains_cons] at this
      simp at this

theorem mem_dedupGo :
    ∀ (ls seen : List String) (x : String), x ∈ ls → seen.contains x = false →
      x ∈ dedupGo ls seen := by
  intro ls
  induction ls with
  | nil => intro seen x hx; simp at hx
  | cons y ys ih =>
    intro seen x hx hs
    by_cases hy : y ∈ seen
    · rcases List.mem_cons.mp hx with rfl | hx2
      · rw [contains_iff_mem seen x |>.mpr hy] at hs; cases hs
      · simpa [dedupGo, hy] using ih seen x hx2 hs
    · have hy2 : seen.contains y = false := contains_false_iff seen y |>.mpr hy
      simp only [dedupGo, hy2, Bool.false_eq_true, if_false, List.mem_cons]
      rcases List.mem_cons.mp hx with rfl | hx2
      · exact Or.inl rfl
      · by_cases hxy : x = y
        · exact Or.inl hxy
        · refine Or.inr (ih (y :: seen) x hx2 ?_)
          rw [contains_cons, Bool.or_eq_false_iff]
          exact ⟨beq_eq_false_iff_ne.mpr hxy, hs⟩

theorem pyDedup_nodup (ls : List String) : (pyDedup ls).Nodup := dedupGo_nodup ls []

theorem mem_pyDedup (ls : List String) (x : String) (h : x ∈ ls) : x ∈ pyDedup ls :=
  mem_dedupGo ls [] x h rfl

theorem noPageFetch_fetch_writes (url fp : String) (l : List Nat) :
    noPageFetch (Effect.fileFetch url :: chunkWrites fp l) = true := by
  simp [noPageFetch, List.all_cons, chunkWrites, List.all_map, Function.comp]

theorem cms_download_file_visited (net : Net) (url fp : String) (st : CrawlState) :
    (cms_download_file net url fp st).2.visited = st.visited := by
  unfold cms_download_file
  by_cases hm : url ∈ st.downloaded
  · simp [hm]
  · rcases hf : net.file url with _ | ⟨ct, chunks, wfa⟩
    · simp [hm, hf]
    · cases wfa <;> simp [hm, hf]

theorem cms_download_file_trace (net : Net) (url fp : String) (st : CrawlState) :
    ∃ ext, (cms_download_file net url fp st).2.trace = st.trace ++ ext ∧
      noPageFetch ext = true := by
  unfold cms_download_file
  by_cases hm : url ∈ st.downloaded
  · exact ⟨[], by simp [hm], by simp [noPageFetch]⟩
  · rcases hf : net.file url with _ | ⟨ct, chunks, wfa⟩
    · exact ⟨[Effect.fileFetch url], by simp [hm, hf], by simp [noPageFetch]⟩
    · cases wfa with
      | some i =>
        exact ⟨Effect.fileFetch url :: chunkWrites fp (chunks.take i),
          by simp [hm, hf], noPageFetch_fetch_writes url fp (chunks.take i)⟩
      | none =>
        exact ⟨Effect.fileFetch url :: chunkWrites fp chunks,
          by simp [hm, hf], noPageFetch_fetch_writes url fp chunks⟩

theorem cms_download_file_downloaded (net : Net) (url fp : String) (st : CrawlState) :
    (cms_download_file net url fp st).2.downloaded = st.downloaded ∨
    (cms_download_file net url fp st).2.downloaded = url :: st.downloaded := by
  unfold cms_download_file
  by_cases hm : url ∈ st.downloaded
  · exact Or.inl (by simp [hm])
  · rcases hf : net.file url with _ | ⟨ct, chunks, wfa⟩
    · exact Or.inl (by simp [hm, hf])
    · cases wfa with
      | some i => exact Or.inl (by simp [hm, hf])
      | none => exact Or.inr (by simp [hm, hf])

theorem cms_download_file_fetch (net : Net) (url fp : String) (st : CrawlState)
    (h : st.downloaded.contains url = false) :
    Effect.fileFetch url ∈ (cms_download_file net url fp st).2.trace := by
  have hm : url ∉ st.downloaded := (contains_false_iff st.downloaded url).mp h
  unfold cms_download_file
  rcases hf : net.file url with _ | ⟨ct, chunks, wfa⟩
  · simp [hm, hf]
  · cases wfa <;> simp [hm, hf]

theorem loinc_download_file_visited (net : Net) (url fp : String) (st : CrawlState) :
    (loinc_download_file net url fp st).2.visited = st.visited := by
  unfold loinc_download_file
  by_cases hm : url ∈ st.downloaded
  · simp [hm]
  · rcases hf : net.file url with _ | ⟨ct, chunks, wfa⟩
    · simp [hm, hf]
    · by_cases hh : strContains (strToLower ct) "text/html" = true ∧ chunks.sum < 10000
      · simp [hm, hf, hh]
      · cases wfa <;> simp [hm, hf, hh]

theorem loinc_download_file_trace (net : Net) (url fp : String) (st : CrawlState) :
    ∃ ext, (loinc_download_file net url fp st).2.trace = st.trace ++ ext ∧
      noPageFetch ext = true := by
  unfold loinc_download_file
  by_cases hm : url ∈ st.downloaded
  · exact ⟨[], by simp [hm], by simp [noPageFetch]⟩
  · rcases hf : net.file url with _ | ⟨ct, chunks, wfa⟩
    · exact ⟨[Effect.fileFetch url], by simp [hm, hf], by simp [noPageFetch]⟩
    · by_cases hh : strContains (strToLower ct) "text/html" = true ∧ chunks.sum < 10000
      · exact ⟨[Effect.fileFetch url], by simp [hm, hf, hh], by simp [noPageFetch]⟩
      · cases wfa with
        | some i =>
          exact ⟨Effect.fileFetch url :: chunkWrites fp (chunks.take i),
            by simp [hm, hf, hh], noPageFetch_fetch_writes url fp (chunks.take i)⟩
        | none =>
          exact ⟨Effect.fileFetch url :: chunkWrites fp chunks,
            by simp [hm, hf, hh], noPageFetch_fetch_writes url fp chunks⟩

theorem loinc_download_file_downloaded (net : Net) (url fp : String) (st : CrawlState) :
    (loinc_download_file net url fp st).2.downloaded = st.downloaded ∨
    (loinc_download_file net url fp st).2.downloaded = url :: st.downloaded := by
  unfold loinc_download_file
  by_cases hm : url ∈ st.downloaded
  · exact Or.inl (by simp [hm])
  · rcases hf : net.file url with _ | ⟨ct, chunks, wfa⟩
    · exact Or.inl (by simp [hm, hf])
    · by_cases hh : strContains (strToLower ct) "text/html" = true ∧ chunks.sum < 10000
      · exact Or.inl (by simp [hm, hf, hh])
      · cases wfa with
        | some i => exact Or.inl (by simp [hm, hf, hh])
        | none => exact Or.inr (by simp [hm, hf, hh])

theorem loinc_download_file_fetch (net : Net) (url fp : String) (st : CrawlState)
    (h : st.downloaded.contains url = false) :
    Effect.fileFetch url ∈ (loinc_download_file net url fp st).2.trace := by
  have hm : url ∉ st.downloaded := (contains_false_iff st.downloaded url).mp h
  unfold loinc_download_file
  rcases hf : net.file url with _ | ⟨ct, chunks, wfa⟩
  · simp [hm, hf]
  · by_cases hh : strContains (strToLower ct) "text/html" = true ∧ chunks.sum < 10000
    · simp [hm, hf, hh]
    · cases wfa <;> simp [hm, hf, hh]

theorem download_dl_contains_false (dl dl2 : List String) (url u : String)
    (hcase : dl2 = dl ∨ dl2 = url :: dl)
    (h : dl.contains u = false) (hne : u ≠ url) : dl2.contains u = false := by
  rcases hcase with rfl | rfl
  · exact h
  · rw [contains_cons, Bool.or_eq_false_iff]
    exact ⟨beq_eq_false_iff_ne.mpr hne, h⟩

theorem cms_file_pass_visited (net : Net) :
    ∀ (links : List String) (st : CrawlState),
      (cms_file_pass net links st).visited = st.visited := by
  intro links
  induction links with
  | nil => intro st; rfl
  | cons link rest ih =>
    intro st
    by_cases hx : hasDownloadExt cmsDownloadExts (strToLower (urlparse link).path) = true
    · simp only [cms_file_pass, hx, if_true]
      rw [ih, cms_download_file_visited]
    · rw [Bool.not_eq_true] at hx
      simp only [cms_file_pass, hx, Bool.false_eq_true, if_false]
      exact ih st

theorem cms_file_pass_trace (net : Net) :
    ∀ (links : List String) (st : CrawlState),
      ∃ ext, (cms_file_pass net links st).trace = st.trace ++ ext ∧
        noPageFetch ext = true := by
  intro links
  induction links with
  | nil => intro st; exact ⟨[], by simp [cms_file_pass], by simp [noPageFetch]⟩
  | cons link rest ih =>
    intro st
    by_cases hx : hasDownloadExt cmsDownloadExts (strToLower (urlparse link).path) = true
    · obtain ⟨e1, he1, hn1⟩ := cms_download_file_trace net link
        (cms_subdir (urlparse link).path ++ "/" ++ cms_get_filename_from_url link "file") st
      obtain ⟨e2, he2, hn2⟩ := ih ((cms_download_file net link
        (cms_subdir (urlparse link).path ++ "/" ++ cms_get_filename_from_url link "file") st).2)
      refine ⟨e1 ++ e2, ?_, ?_⟩
      · simp only [cms_file_pass, hx, if_true]
        rw [he2, he1, List.append_assoc]
      · rw [noPageFetch_append, hn1, hn2]; rfl
    · rw [Bool.not_eq_true] at hx
      simp only [cms_file_pass, hx, Bool.false_eq_true, if_false]
      exact ih st

theorem cms_file_pass_mem (net : Net) (links : List String) (st : CrawlState)
    (e : Effect) (h : e ∈ st.trace) : e ∈ (cms_file_pass net links st).trace := by
  obtain ⟨ext, he, _⟩ := cms_file_pass_trace net links st
  rw [he]
  exact List.mem_append_left ext h

theorem cms_file_pass_fetch (net : Net) :
    ∀ (links : List String) (st : CrawlState) (link : String),
      link ∈ links → links.Nodup →
      hasDownloadExt cmsDownloadExts (strToLower (urlparse link).path) = true →
      st.downloaded.contains link = false →
      Effect.fileFetch link ∈ (cms_file_pass net links st).trace := by
  intro links
  induction links with
  | nil => intro st link h; simp at h
  | cons y ys ih =>
    intro st link hmem hnd hext hdl
    rcases List.mem_cons.mp hmem with rfl | hmem2
    · simp only [cms_file_pass, hext, if_true]
      apply cms_file_pass_mem
      exact cms_download_file_fetch net link _ st hdl
    · have hne : link ≠ y := by
        intro he
        subst he
        exact (List.nodup_cons.mp hnd).1 hmem2
      have hnd2 := (List.nodup_cons.mp hnd).2
      by_cases hy : hasDownloadExt cmsDownloadExts (strToLower (urlparse y).path) = true
      · simp only [cms_file_pass, hy, if_true]
        apply ih _ link hmem2 hnd2 hext
        exact download_dl_contains_false st.downloaded _ y link
          (cms_download_file_downloaded net y _ st) hdl hne
      · rw [Bool.not_eq_true] at hy
        simp only [cms_file_pass, hy, Bool.false_eq_true, if_false]
        exact ih st link hmem2 hnd2 hext hdl

theorem loinc_file_pass_visited (net : Net) :
    ∀ (links : List String) (st : CrawlState),
      (loinc_file_pass net links st).visited = st.visited := by
  intro links
  induction links with
  | nil => intro st; rfl
  | cons link rest ih =>
    intro st
    by_cases hx : hasDownloadExt loincDownloadExts (strToLower (urlparse link).path) = true
    · simp only [loinc_file_pass, hx, if_true]
      rw [ih, loinc_download_file_visited]
    · rw [Bool.not_eq_true] at hx
      simp only [loinc_file_pass, hx, Bool.false_eq_true, if_false]
      exact ih st

theorem loinc_file_pass_trace (net : Net) :
    ∀ (links : List String) (st : CrawlState),
      ∃ ext, (loinc_file_pass net links st).trace = st.trace ++ ext ∧
        noPageFetch ext = true := by
  intro links
  induction links with
  | nil => intro st; exact ⟨[], by simp [loinc_file_pass], by simp [noPageFetch]⟩
  | cons link rest ih =>
    intro st
    by_cases hx : hasDownloadExt loincDownloadExts (strToLower (urlparse link).path) = true
    · obtain ⟨e1, he1, hn1⟩ := loinc_download_file_trace net link
        ("loinc/" ++ loinc_get_filename_from_url link "file") st
      obtain ⟨e2, he2, hn2⟩ := ih ((loinc_download_file net link
        ("loinc/" ++ loinc_get_filename_from_url link "file") st).2)
      refine ⟨e1 ++ e2, ?_, ?_⟩
      · simp only [loinc_file_pass, hx, if_true]
        rw [he2, he1, List.append_assoc]
      · rw [noPageFetch_append, hn1, hn2]; rfl
    · rw [Bool.not_eq_true] at hx
      simp only [loinc_file_pass, hx, Bool.false_eq_true, if_false]
      exact ih st

theorem loinc_file_pass_mem (net : Net) (links : List String) (st : CrawlState)
    (e : Effect) (h : e ∈ st.trace) : e ∈ (loinc_file_pass net links st).trace := by
  obtain ⟨ext, he, _⟩ := loinc_file_pass_trace net links st
  rw [he]
  exact List.mem_append_left ext h

theorem cms_crawl_page_depth (net : Net) (fuel : Nat) (url : String) (d maxd : Nat)
    (st : CrawlState) (h : maxd < d) :
    cms_crawl_page net fuel url d maxd st = st := by
  cases fuel with
  | zero => rfl
  | succ fuel => simp only [cms_crawl_page, h, if_true]

theorem cms_crawl_page_visited_stop (net : Net) (fuel : Nat) (url : String) (d maxd : Nat)
    (st : CrawlState) (h : st.visited.contains url = true) :
    cms_crawl_page net fuel url d maxd st = st := by
  cases fuel with
  | zero => rfl
  | succ fuel =>
    by_cases hd : maxd < d
    · simp only [cms_crawl_page, hd, if_true]
    · simp only [cms_crawl_page, hd, if_false, h, if_true]

theorem loinc_crawl_visited_stop (net : Net) (url : String) (st : CrawlState)
    (h : st.visited.contains url = true) :
    loinc_crawl_download_page net url st = st := by
  simp only [loinc_crawl_download_page, h, if_true]

theorem cms_download_file_mem (net : Net) (url fp : String) (st : CrawlState)
    (e : Effect) (h : e ∈ st.trace) : e ∈ (cms_download_file net url fp st).2.trace := by
  obtain ⟨ext, hext, _⟩ := cms_download_file_trace net url fp st
  rw [hext]
  exact List.mem_append_left ext h

theorem loinc_download_file_mem (net : Net) (url fp : String) (st : CrawlState)
    (e : Effect) (h : e ∈ st.trace) : e ∈ (loinc_download_file net url fp st).2.trace := by
  obtain ⟨ext, hext, _⟩ := loinc_download_file_trace net url fp st
  rw [hext]
  exact List.mem_append_left ext h

theorem cms_crawl_page_mem_trace (net : Net) :
    ∀ (fuel : Nat) (url : String) (d maxd : Nat) (st : CrawlState) (e : Effect),
      e ∈ st.trace → e ∈ (cms_crawl_page net fuel url d maxd st).trace := by
  intro fuel
  induction fuel with
  | zero => intro url d maxd st e he; exact he
  | succ fuel ih =>
    intro url d maxd st e he
    by_cases hd : maxd < d
    · rw [cms_crawl_page_depth net _ url d maxd st hd]; exact he
    · by_cases hv : st.visited.contains url = true
      · rw [cms_crawl_page_visited_stop net _ url d maxd st hv]; exact he
      · rw [Bool.not_eq_true] at hv
        simp only [cms_crawl_page, hd, if_false, hv, Bool.false_eq_true]
        rcases hp : net.page url with _ | resp
        · simp only [hp]
          exact List.mem_append_left _ he
        · simp only [hp]
          by_cases hf : (hasDownloadExt cmsDownloadExts (strToLower (urlparse url).path) ||
              strContains (strToLower resp.contentType) "application/" ||
              strContains (strToLower resp.contentType) "pdf") = true
          · simp only [hf, if_true]
            exact cms_download_file_mem _ _ _ _ _ (List.mem_append_left _ he)
          · rw [Bool.not_eq_true] at hf
            simp only [hf, Bool.false_eq_true, if_false]
            refine foldl_preserve _ (fun (s : CrawlState) => e ∈ s.trace) ?_ _ _ ?_
            · intro s a hs
              by_cases hc : (!(s.visited.contains a) &&
                  strContains (urlparse a).netloc "cms.gov") = true
              · simp only [hc, if_true]
                exact ih a (d + 1) maxd s e hs
              · rw [Bool.not_eq_true] at hc
                simp only [hc, Bool.false_eq_true, if_false]
                exact hs
            · exact cms_file_pass_mem _ _ _ _ (List.mem_append_left _ he)

theorem goodTrace_fetch (st : CrawlState) (url : String) (h : GoodTrace st)
    (hv : st.visited.contains url = false) :
    GoodTrace ⟨url :: st.visited, st.downloaded, st.trace ++ [Effect.pageFetch url]⟩ := by
  intro u
  obtain ⟨h1, h2⟩ := h u
  have hc : pageFetchCount (st.trace ++ [Effect.pageFetch url]) u =
      pageFetchCount st.trace u + (if url == u then 1 else 0) := by
    rw [pageFetchCount_append, pageFetchCount_single]
  by_cases he : url = u
  · subst he
    have hz : pageFetchCount st.trace url = 0 := by
      by_contra hnz
      rw [h2 hnz] at hv
      cases hv
    refine ⟨by simp [hc, hz], fun _ => ?_⟩
    show (url :: st.visited).contains url = true
    rw [contains_cons]
    simp
  · have hbeq : (url == u) = false := beq_eq_false_iff_ne.mpr he
    rw [show (⟨url :: st.visited, st.downloaded,
      st.trace ++ [Effect.pageFetch url]⟩ : CrawlState).trace =
      st.trace ++ [Effect.pageFetch url] from rfl, hc, hbeq]
    refine ⟨by simpa using h1, fun hnz => ?_⟩
    have hcontains := h2 (by simpa using hnz)
    show (url :: st.visited).contains u = true
    rw [contains_cons, hcontains]
    simp

theorem goodTrace_ext (st st2 : CrawlState) (ext : List Effect) (h : GoodTrace st)
    (hv : st2.visited = st.visited) (ht : st2.trace = st.trace ++ ext)
    (hn : noPageFetch ext = true) : GoodTrace st2 := by
  intro u
  obtain ⟨h1, h2⟩ := h u
  rw [GoodTrace] at *
  rw [ht, pageFetchCount_append, noPageFetch_count ext u hn, Nat.add_zero, hv]
  exact ⟨h1, h2⟩

theorem cms_download_file_good (net : Net) (url fp : String) (st : CrawlState)
    (h : GoodTrace st) : GoodTrace (cms_download_file net url fp st).2 := by
  obtain ⟨ext, hext, hnn⟩ := cms_download_file_trace net url fp st
  exact goodTrace_ext st _ ext h (cms_download_file_visited net url fp st) hext hnn

theorem loinc_download_file_good (net : Net) (url fp : String) (st : CrawlState)
    (h : GoodTrace st) : GoodTrace (loinc_download_file net url fp st).2 := by
  obtain ⟨ext, hext, hnn⟩ := loinc_download_file_trace net url fp st
  exact goodTrace_ext st _ ext h (loinc_download_file_visited net url fp st) hext hnn

theorem cms_file_pass_good (net : Net) (links : List String) (st : CrawlState)
    (h : GoodTrace st) : GoodTrace (cms_file_pass net links st) := by
  obtain ⟨ext, hext, hnn⟩ := cms_file_pass_trace net links st
  exact goodTrace_ext st _ ext h (cms_file_pass_visited net links st) hext hnn

theorem cms_crawl_page_good (net : Net) :
    ∀ (fuel : Nat) (url : String) (d maxd : Nat) (st : CrawlState),
      GoodTrace st → GoodTrace (cms_crawl_page net fuel url d maxd st) := by
  intro fuel
  induction fuel with
  | zero => intro url d maxd st h; exact h
  | succ fuel ih =>
    intro url d maxd st h
    by_cases hd : maxd < d
    · rw [cms_crawl_page_depth net _ url d maxd st hd]; exact h
    · by_cases hv : st.visited.contains url = true
      · rw [cms_crawl_page_visited_stop net _ url d maxd st hv]; exact h
      · rw [Bool.not_eq_true] at hv
        have hg2 : GoodTrace
            ⟨url :: st.visited, st.downloaded, st.trace ++ [Effect.pageFetch url]⟩ :=
          goodTrace_fetch st url h hv
        simp only [cms_crawl_page, hd, if_false, hv, Bool.false_eq_true]
        rcases hp : net.page url with _ | resp
        · simp only [hp]; exact hg2
        · simp only [hp]
          by_cases hf : (hasDownloadExt cmsDownloadExts (strToLower (urlparse url).path) ||
              strContains (strToLower resp.contentType) "application/" ||
              strContains (strToLower resp.contentType) "pdf") = true
          · simp only [hf, if_true]
            exact cms_download_file_good _ _ _ _ hg2
          · rw [Bool.not_eq_true] at hf
            simp only [hf, Bool.false_eq_true, if_false]
            refine foldl_preserve _ (fun (s : CrawlState) => GoodTrace s) ?_ _ _ ?_
            · intro s a hs
              by_cases hc : (!(s.visited.contains a) &&
                  strContains (urlparse a).netloc "cms.gov") = true
              · simp only [hc, if_true]
                exact ih a (d + 1) maxd s hs
              · rw [Bool.not_eq_true] at hc
                simp only [hc, Bool.false_eq_true, if_false]
                exact hs
            · exact cms_file_pass_good _ _ _ hg2

theorem cms_download_file_count (net : Net) (url fp : String) (st : CrawlState) (u : String) :
    pageFetchCount (cms_download_file net url fp st).2.trace u =
      pageFetchCount st.trace u := by
  obtain ⟨ext, hext, hnn⟩ := cms_download_file_trace net url fp st
  rw [hext, pageFetchCount_append, noPageFetch_count ext u hnn, Nat.add_zero]

theorem cms_file_pass_count (net : Net) (links : List String) (st : CrawlState) (u : String) :
    pageFetchCount (cms_file_pass net links st).trace u = pageFetchCount st.trace u := by
  obtain ⟨ext, hext, hnn⟩ := cms_file_pass_trace net links st
  rw [hext, pageFetchCount_append, noPageFetch_count ext u hnn, Nat.add_zero]

theorem cms_find_links_nodup (anchors : List String) (text base : String)
    (visited : List String) :
    (cms_find_downloadable_links anchors text base visited).Nodup := by
  simp only [cms_find_downloadable_links]
  exact pyDedup_nodup _

theorem cms_crawl_page_atmax_count (net : Net) (fuel : Nat) (url : String) (maxd : Nat)
    (st : CrawlState) (u : String) (hne : u ≠ url) :
    pageFetchCount (cms_crawl_page net fuel url maxd maxd st).trace u =
      pageFetchCount st.trace u := by
  cases fuel with
  | zero => rfl
  | succ fuel =>
    have hd : ¬(maxd < maxd) := lt_irrefl maxd
    by_cases hv : st.visited.contains url = true
    · rw [cms_crawl_page_visited_stop net _ url maxd maxd st hv]
    · rw [Bool.not_eq_true] at hv
      have hone : pageFetchCount (st.trace ++ [Effect.pageFetch url]) u =
          pageFetchCount st.trace u := by
        rw [pageFetchCount_append, pageFetchCount_single,
          beq_eq_false_iff_ne.mpr (Ne.symm hne)]
        simp
      simp only [cms_crawl_page, hd, if_false, hv, Bool.false_eq_true]
      rcases hp : net.page url with _ | resp
      · simp only [hp]; exact hone
      · simp only [hp]
        by_cases hf : (hasDownloadExt cmsDownloadExts (strToLower (urlparse url).path) ||
            strContains (strToLower resp.contentType) "application/" ||
            strContains (strToLower resp.contentType) "pdf") = true
        · simp only [hf, if_true]
          rw [cms_download_file_count]
          exact hone
        · rw [Bool.not_eq_true] at hf
          simp only [hf, Bool.false_eq_true, if_false]
          refine foldl_preserve _ (fun (s : CrawlState) =>
            pageFetchCount s.trace u = pageFetchCount st.trace u) ?_ _ _ ?_
          · intro s a hs
            by_cases hc : (!(s.visited.contains a) &&
                strContains (urlparse a).netloc "cms.gov") = true
            · simp only [hc, if_true]
              rw [cms_crawl_page_depth net fuel a (maxd + 1) maxd s (Nat.lt_succ_self maxd)]
              exact hs
            · rw [Bool.not_eq_true] at hc
              simp only [hc, Bool.false_eq_true, if_false]
              exact hs
          · dsimp only
            rw [cms_file_pass_count]
            exact hone

theorem cms_crawl_page_file_handoff (net : Net) (fuel : Nat) (url : String) (maxd : Nat)
    (st : CrawlState) (resp : PageResp) (link : String)
    (hv : st.visited.contains url = false)
    (hp : net.page url = some resp)
    (hnotfile : (hasDownloadExt cmsDownloadExts (strToLower (urlparse url).path) ||
        strContains (strToLower resp.contentType) "application/" ||
        strContains (strToLower resp.contentType) "pdf") = false)
    (hlink : link ∈ cms_find_downloadable_links resp.anchors resp.text url (url :: st.visited))
    (hext : hasDownloadExt cmsDownloadExts (strToLower (urlparse link).path) = true)
    (hdl : st.downloaded.contains link = false) :
    Effect.fileFetch link ∈ (cms_crawl_page net (fuel + 1) url maxd maxd st).trace := by
  have hd : ¬(maxd < maxd) := lt_irrefl maxd
  simp only [cms_crawl_page, hd, if_false, hv, Bool.false_eq_true, hp, hnotfile]
  refine foldl_preserve _ (fun (s : CrawlState) => Effect.fileFetch link ∈ s.trace) ?_ _ _ ?_
  · intro s a hs
    by_cases hc : (!(s.visited.contains a) &&
        strContains (urlparse a).netloc "cms.gov") = true
    · simp only [hc, if_true]
      exact cms_crawl_page_mem_trace net fuel a (maxd + 1) maxd s _ hs
    · rw [Bool.not_eq_true] at hc
      simp only [hc, Bool.false_eq_true, if_false]
      exact hs
  · refine cms_file_pass_fetch net _ _ link hlink ?_ hext ?_
    · exact cms_find_links_nodup _ _ _ _
    · exact hdl

theorem cmsAnchorLinks_mem_ext (baseUrl : String) (visited : List String) :
    ∀ (anchors : List String) (href : String), href ∈ anchors →
      cmsExtCond (urljoin baseUrl href) = true →
      urljoin baseUrl href ∈ cmsAnchorLinks baseUrl visited anchors := by
  intro anchors
  induction anchors with
  | nil => intro href h; simp at h
  | cons y ys ih =>
    intro href hmem hext
    rcases List.mem_cons.mp hmem with rfl | hmem2
    · simp [cmsAnchorLinks, hext]
    · have hrec := ih href hmem2 hext
      simp only [cmsAnchorLinks, List.mem_append]
      tauto

theorem cmsAnchorLinks_mem_kw (baseUrl : String) (visited : List String) :
    ∀ (anchors : List String) (href : String), href ∈ anchors →
      cmsKwCond (urljoin baseUrl href) visited = true →
      urljoin baseUrl href ∈ cmsAnchorLinks baseUrl visited anchors := by
  intro anchors
  induction anchors with
  | nil => intro href h; simp at h
  | cons y ys ih =>
    intro href hmem hkw
    rcases List.mem_cons.mp hmem with rfl | hmem2
    · simp [cmsAnchorLinks, hkw]
    · have hrec := ih href hmem2 hkw
      simp only [cmsAnchorLinks, List.mem_append]
      tauto

theorem cms_find_links_mem (anchors : List String) (text base : String)
    (visited : List String) (href : String) (h : href ∈ anchors)
    (hcond : cmsExtCond (urljoin base href) = true ∨
      cmsKwCond (urljoin base href) visited = true) :
    urljoin base href ∈ cms_find_downloadable_links anchors text base visited := by
  simp only [cms_find_downloadable_links]
  apply mem_pyDedup
  apply List.mem_append_left
  rcases hcond with hext | hkw
  · exact cmsAnchorLinks_mem_ext base visited anchors href h hext
  · exact cmsAnchorLinks_mem_kw base visited anchors href h hkw

theorem loincAnchorLinks_mem_ext (baseUrl : String) (visited : List String) :
    ∀ (anchors : List String) (href : String), href ∈ anchors → href ≠ "" →
      loincExtCond (urljoin baseUrl href) = true →
      urljoin baseUrl href ∈ loincAnchorLinks baseUrl visited anchors := by
  intro anchors
  induction anchors with
  | nil => intro href h; simp at h
  | cons y ys ih =>
    intro href hmem hne hext
    rcases List.mem_cons.mp hmem with rfl | hmem2
    · have hbe : (href == "") = false := beq_eq_false_iff_ne.mpr hne
      simp [loincAnchorLinks, hbe, hext]
    · by_cases hy : (y == "") = true
      · simp only [loincAnchorLinks, hy, if_true]
        exact ih href hmem2 hne hext
      · rw [Bool.not_eq_true] at hy
        have hrec := ih href hmem2 hne hext
        simp only [loincAnchorLinks, hy, Bool.false_eq_true, if_false, List.mem_append]
        tauto

theorem loinc_find_links_mem (anchors formActions : List String) (text base : String)
    (visited : List String) (href : String) (h : href ∈ anchors) (hne : href ≠ "")
    (hext : loincExtCond (urljoin base href) = true) :
    urljoin base href ∈
      loinc_find_downloadable_links anchors formActions text base visited := by
  simp only [loinc_find_downloadable_links]
  apply mem_pyDedup
  apply List.mem_append_left
  apply List.mem_append_left
  exact loincAnchorLinks_mem_ext base visited anchors href h hne hext

/-! ## Claim theorems -/

/-- Claim C1 (amended): both engines test Visited-Set membership before any
fetch and return unchanged (zero effects) when the URL is already visited;
in the CMS engine the at-most-once page-fetch invariant (`GoodTrace`) is
preserved by every crawl step, so a run started on the empty state fetches
every URL as a page at most once.  In the LOINC engine the terms-acceptance
flow refetches the same URL within a single visit (see the counterexample),
so the at-most-once consequence holds of the CMS engine only. -/
theorem C1_visited_dedup :
    (∀ (net : Net) (fuel : Nat) (url : String) (d maxd : Nat) (st : CrawlState),
      st.visited.contains url = true → cms_crawl_page net fuel url d maxd st = st) ∧
    (∀ (net : Net) (url : String) (st : CrawlState),
      st.visited.contains url = true → loinc_crawl_download_page net url st = st) ∧
    (∀ (net : Net) (fuel : Nat) (url : String) (d maxd : Nat) (st : CrawlState),
      GoodTrace st → GoodTrace (cms_crawl_page net fuel url d maxd st)) ∧
    (∀ (net : Net) (fuel : Nat) (url : String) (d maxd : Nat) (u : String),
      pageFetchCount (cms_crawl_page net fuel url d maxd emptyState).trace u ≤ 1) := by
  refine ⟨?_, ?_, ?_, ?_⟩
  · intro net fuel url d maxd st h
    exact cms_crawl_page_visited_stop net fuel url d maxd st h
  · intro net url st h
    exact loinc_crawl_visited_stop net url st h
  · intro net fuel url d maxd st h
    exact cms_crawl_page_good net fuel url d maxd st h
  · intro net fuel url d maxd u
    have hg : GoodTrace emptyState := by
      intro v
      exact ⟨Nat.zero_le 1, fun h => (h rfl).elim⟩
    exact (cms_crawl_page_good net fuel url d maxd emptyState hg u).1

/-- Witness for C1 at concrete inputs: an already-visited URL is a no-op
for both engines, and a fresh CMS run fetches the seed at most once. -/
theorem C1_visited_dedup_witness :
    cms_crawl_page plainHtmlNet 4 "https://www.cms.gov/a" 0 3 visitedAState = visitedAState ∧
    loinc_crawl_download_page plainHtmlNet "https://loinc.org/a" visitedLState = visitedLState ∧
    pageFetchCount (cms_crawl_page plainHtmlNet 4 "https://www.cms.gov/a" 0 3
      emptyState).trace "https://www.cms.gov/a" ≤ 1 :=
  ⟨C1_visited_dedup.1 plainHtmlNet 4 "https://www.cms.gov/a" 0 3 visitedAState (by decide),
   C1_visited_dedup.2.1 plainHtmlNet "https://loinc.org/a" visitedLState (by decide),
   C1_visited_dedup.2.2.2 plainHtmlNet 4 "https://www.cms.gov/a" 0 3 "https://www.cms.gov/a"⟩

/-- Counterexample to C1 as stated: on the LOINC download page URL a single
visit fetches the page twice — once in the crawl step and once more inside
the terms-acceptance flow — so the claimed consequence that no URL is
fetched as a page more than once per run fails for the LOINC engine. -/
theorem C1_double_fetch_counterexample :
    pageFetchCount (loinc_crawl_download_page plainHtmlNet loincDownloadPageUrl
      emptyState).trace loincDownloadPageUrl = 2 := by decide

/-- Claim C2: a URL already in the Downloaded Set makes both downloaders
return the skip value `false` with the state (trace, sets, writes)
completely unchanged, for every network oracle and every state — in
particular independently of the Visited Set. -/
theorem C2_downloaded_skip :
    ∀ (net : Net) (url fp : String) (st : CrawlState),
      st.downloaded.contains url = true →
      cms_download_file net url fp st = (false, st) ∧
      loinc_download_file net url fp st = (false, st) := by
  intro net url fp st h
  have hm : url ∈ st.downloaded := (contains_iff_mem _ _).mp h
  exact ⟨by simp [cms_download_file, hm], by simp [loinc_download_file, hm]⟩

/-- Witness for C2 at a concrete state whose Downloaded Set holds the URL. -/
theorem C2_downloaded_skip_witness :
    cms_download_file smallHtmlFileNet "https://www.cms.gov/d.zip" "out" dlState
      = (false, dlState) ∧
    loinc_download_file smallHtmlFileNet "https://www.cms.gov/d.zip" "out" dlState
      = (false, dlState) :=
  C2_downloaded_skip smallHtmlFileNet "https://www.cms.gov/d.zip" "out" dlState (by decide)

/-- Claim C3: entering the CMS crawl step with `depth > max_depth` returns
the state unchanged (no fetch, no download, no recursion); at
`depth = max_depth` no page other than the entered URL is ever fetched
(the recursion pass is inert), while a file link extracted from the page
is still handed to the downloader (its fetch appears in the trace). -/
theorem C3_depth_bound :
    (∀ (net : Net) (fuel : Nat) (url : String) (d maxd : Nat) (st : CrawlState),
      maxd < d → cms_crawl_page net fuel url d maxd st = st) ∧
    (∀ (net : Net) (fuel : Nat) (url : String) (maxd : Nat) (st : CrawlState) (u : String),
      u ≠ url →
      pageFetchCount (cms_crawl_page net fuel url maxd maxd st).trace u =
        pageFetchCount st.trace u) ∧
    (∀ (net : Net) (fuel : Nat) (url : String) (maxd : Nat) (st : CrawlState)
      (resp : PageResp) (link : String),
      st.visited.contains url = false →
      net.page url = some resp →
      (hasDownloadExt cmsDownloadExts (strToLower (urlparse url).path) ||
        strContains (strToLower resp.contentType) "application/" ||
        strContains (strToLower resp.contentType) "pdf") = false →
      link ∈ cms_find_downloadable_links resp.anchors resp.text url (url :: st.visited) →
      hasDownloadExt cmsDownloadExts (strToLower (urlparse link).path) = true →
      st.downloaded.contains link = false →
      Effect.fileFetch link ∈ (cms_crawl_page net (fuel + 1) url maxd maxd st).trace) := by
  refine ⟨?_, ?_, ?_⟩
  · intro net fuel url d maxd st h
    exact cms_crawl_page_depth net fuel url d maxd st h
  · intro net fuel url maxd st u hne
    exact cms_crawl_page_atmax_count net fuel url maxd st u hne
  · intro net fuel url maxd st resp link hv hp hnf hlink hext hdl
    exact cms_crawl_page_file_handoff net fuel url maxd st resp link hv hp hnf hlink hext hdl

/-- Witness for C3: past the bound the engine is a no-op; at the bound the
zip link of the served page is fetched as a file while no other page is
fetched. -/
theorem C3_depth_bound_witness :
    cms_crawl_page zipAnchorNet 4 hcpcsSeedUrl 4 3 visitedAState = visitedAState ∧
    pageFetchCount (cms_crawl_page zipAnchorNet 1 hcpcsSeedUrl 3 3
      emptyState).trace hcpcsZipUrl = pageFetchCount emptyState.trace hcpcsZipUrl ∧
    Effect.fileFetch hcpcsZipUrl ∈
      (cms_crawl_page zipAnchorNet 1 hcpcsSeedUrl 3 3 emptyState).trace :=
  ⟨C3_depth_bound.1 zipAnchorNet 4 hcpcsSeedUrl 4 3 visitedAState (by decide),
   C3_depth_bound.2.1 zipAnchorNet 1 hcpcsSeedUrl 3 emptyState hcpcsZipUrl (by decide),
   C3_depth_bound.2.2 zipAnchorNet 0 hcpcsSeedUrl 3 emptyState zipResp hcpcsZipUrl
     (by decide) rfl (by decide) (by decide) (by decide) (by decide)⟩

/-- Claim C4 (amended): every retry loop makes at most 3 attempts with the
configured `retries = 3`, surfaces failure as the value `none` exactly when
all three attempts failed, and the inter-attempt delay is a constant 2
seconds in `crawl_cms_hcpcs.get_page` (and in
`download_nlm_genes.make_request`, which shares the loop), while
`download_loinc.get_page` sleeps `2 ^ attempt` seconds — exponential
backoff, visible as `[1, 2, 4, 8]` at five retries. -/
theorem C4_retry_policy :
    (∀ att : Nat → Option PageResp, (cms_get_page att 3).2.2 ≤ 3 ∧
      (loinc_get_page att 3).2.2 ≤ 3) ∧
    (∀ (α : Type) (att : Nat → Option α), (nlm_make_request att 3).2.2 ≤ 3) ∧
    (∀ att : Nat → Option PageResp,
      ((cms_get_page att 3).1 = none ↔ att 0 = none ∧ att 1 = none ∧ att 2 = none)) ∧
    (∀ att : Nat → Option PageResp,
      ((loinc_get_page att 3).1 = none ↔ att 0 = none ∧ att 1 = none ∧ att 2 = none)) ∧
    (∀ (α : Type) (att : Nat → Option α),
      ((nlm_make_request att 3).1 = none ↔ att 0 = none ∧ att 1 = none ∧ att 2 = none)) ∧
    (∀ (att : Nat → Option PageResp) (d : Nat), d ∈ (cms_get_page att 3).2.1 → d = 2) ∧
    (∀ (α : Type) (att : Nat → Option α) (d : Nat),
      d ∈ (nlm_make_request att 3).2.1 → d = 2) ∧
    (∀ att : Nat → Option PageResp, (loinc_get_page att 3).2.1 = [] ∨
      (loinc_get_page att 3).2.1 = [2 ^ 0] ∨
      (loinc_get_page att 3).2.1 = [2 ^ 0, 2 ^ 1]) ∧
    (loinc_get_page (fun _ => none) 5).2.1 = [1, 2, 4, 8] := by
  refine ⟨?_, ?_, ?_, ?_, ?_, ?_, ?_, ?_, by decide⟩
  · intro att
    rcases h0 : att 0 with _ | r0 <;> rcases h1 : att 1 with _ | r1 <;>
      rcases h2 : att 2 with _ | r2 <;>
      simp [cms_get_page, cms_get_page_go, loinc_get_page, loinc_get_page_go, h0, h1, h2]
  · intro α att
    rcases h0 : att 0 with _ | r0 <;> rcases h1 : att 1 with _ | r1 <;>
      rcases h2 : att 2 with _ | r2 <;>
      simp [nlm_make_request, nlm_make_request_go, h0, h1, h2]
  · intro att
    rcases h0 : att 0 with _ | r0 <;> rcases h1 : att 1 with _ | r1 <;>
      rcases h2 : att 2 with _ | r2 <;>
      simp [cms_get_page, cms_get_page_go, h0, h1, h2]
  · intro att
    rcases h0 : att 0 with _ | r0 <;> rcases h1 : att 1 with _ | r1 <;>
      rcases h2 : att 2 with _ | r2 <;>
      simp [loinc_get_page, loinc_get_page_go, h0, h1, h2]
  · intro α att
    rcases h0 : att 0 with _ | r0 <;> rcases h1 : att 1 with _ | r1 <;>
      rcases h2 : att 2 with _ | r2 <;>
      simp [nlm_make_request, nlm_make_request_go, h0, h1, h2]
  · intro att d
    rcases h0 : att 0 with _ | r0 <;> rcases h1 : att 1 with _ | r1 <;>
      rcases h2 : att 2 with _ | r2 <;>
      simp [cms_get_page, cms_get_page_go, h0, h1, h2]
  · intro α att d
    rcases h0 : att 0 with _ | r0 <;> rcases h1 : att 1 with _ | r1 <;>
      rcases h2 : att 2 with _ | r2 <;>
      simp [nlm_make_request, nlm_make_request_go, h0, h1, h2]
  · intro att
    rcases h0 : att 0 with _ | r0 <;> rcases h1 : att 1 with _ | r1 <;>
      rcases h2 : att 2 with _ | r2 <;>
      simp [loinc_get_page, loinc_get_page_go, h0, h1, h2]

/-- Witness for C4: the delay 2 drawn from the failing CMS fetch and the
delay 2 drawn from the failing NLM request both equal 2. -/
theorem C4_retry_policy_witness :
    ((2 : Nat) ∈ (cms_get_page (fun _ => none) 3).2.1 ∧ (2 : Nat) = 2) ∧
    ((2 : Nat) ∈ (nlm_make_request (fun (_ : Nat) => (none : Option Unit)) 3).2.1 ∧
      (2 : Nat) = 2) :=
  ⟨⟨by decide, C4_retry_policy.2.2.2.2.2.1 (fun _ => none) 2 (by decide)⟩,
   ⟨by decide, C4_retry_policy.2.2.2.2.2.2.1 Unit (fun _ => none) 2 (by decide)⟩⟩

/-- Counterexample to C4 as stated: with every attempt failing, the CMS
fetch sleeps `[2, 2]` — the delay between consecutive attempts does not
grow with the attempt number — and the LOINC fetch sleeps `[2 ^ 0, 2 ^ 1]`,
the exponential schedule the claim excludes. -/
theorem C4_delay_counterexample :
    (cms_get_page (fun _ => none) 3).2.1 = [2, 2] ∧ ¬((2 : Nat) < 2) ∧
    (loinc_get_page (fun _ => none) 3).2.1 = [2 ^ 0, 2 ^ 1] := by
  exact ⟨by decide, by decide, by decide⟩

/-- Claim C5 (amended): in `download_loinc.download_file` (threshold 10000
bytes) and `download_all_loinc.download_file` (threshold 50000 bytes) a
response whose content type mentions `text/html` with a body below the
threshold is skipped — result `false`, no write effect, only the fetch in
the trace; `crawl_cms_hcpcs.download_file` has no such check and writes the
HTML body to disk (see the counterexample). -/
theorem C5_html_skip :
    (∀ (net : Net) (url fp : String) (st : CrawlState) (ct : String)
      (chunks : List Nat) (wfa : Option Nat),
      st.downloaded.contains url = false →
      net.file url = FileResp.ok ct chunks wfa →
      strContains (strToLower ct) "text/html" = true →
      chunks.sum < 10000 →
      loinc_download_file net url fp st =
        (false, { st with trace := st.trace ++ [Effect.fileFetch url] })) ∧
    (∀ (net : Net) (existing : List String) (url f : String) (st : CrawlState)
      (ct : String) (chunks : List Nat) (wfa : Option Nat),
      existing.contains ("loinc/" ++ f) = false →
      net.file url = FileResp.ok ct chunks wfa →
      strContains (strToLower ct) "text/html" = true →
      chunks.sum < 50000 →
      all_loinc_download_file net existing url (some f) st =
        (false, { st with trace := st.trace ++ [Effect.fileFetch url] })) := by
  constructor
  · intro net url fp st ct chunks wfa hdl hf hct hsz
    have hm : url ∉ st.downloaded := (contains_false_iff _ _).mp hdl
    simp [loinc_download_file, hm, hf, hct, hsz]
  · intro net existing url f st ct chunks wfa hex hf hct hsz
    have hm : ("loinc/" ++ f) ∉ existing := (contains_false_iff _ _).mp hex
    simp [all_loinc_download_file, hm, hf, hct, hsz]

/-- Witness for C5: a 100-byte `text/html` response is skipped by both
LOINC downloaders. -/
theorem C5_html_skip_witness :
    loinc_download_file smallHtmlFileNet "https://loinc.org/x.zip" "loinc/x.zip" emptyState
      = (false, { emptyState with
          trace := emptyState.trace ++ [Effect.fileFetch "https://loinc.org/x.zip"] }) ∧
    all_loinc_download_file smallHtmlFileNet [] "https://loinc.org/x.zip" (some "x.zip")
      emptyState = (false, { emptyState with
          trace := emptyState.trace ++ [Effect.fileFetch "https://loinc.org/x.zip"] }) :=
  ⟨C5_html_skip.1 smallHtmlFileNet "https://loinc.org/x.zip" "loinc/x.zip" emptyState
      "text/html" [100] none (by decide) rfl (by decide) (by decide),
   C5_html_skip.2 smallHtmlFileNet [] "https://loinc.org/x.zip" "x.zip" emptyState
      "text/html" [100] none (by decide) rfl (by decide) (by decide)⟩

/-- Counterexample to C5 as stated: the CMS downloader, given a small
`text/html` response, writes the body and reports success instead of
skipping. -/
theorem C5_cms_writes_counterexample :
    (cms_download_file smallHtmlFileNet "https://www.cms.gov/x.pdf" "cms.gov/x.pdf"
      emptyState).1 = true ∧
    Effect.fileWrite "cms.gov/x.pdf" 100 ∈
      (cms_download_file smallHtmlFileNet "https://www.cms.gov/x.pdf" "cms.gov/x.pdf"
        emptyState).2.trace := by decide

/-- Claim C6 (amended): the LOINC login heuristics report success exactly
when the response URL contains a post-login fragment (`wp-admin` or
`file-access`; `downloads` in the all-LOINC variant) or the lowercased body
contains the lowercased username; this implies the specification's
disjunction, but the code never tests whether the response URL merely
differs from the login URL (see the counterexample).  The failure scenario
— response URL equal to the login URL, body without the username — is
reported as failure by both variants. -/
theorem C6_login_heuristic :
    (∀ respUrl respText : String,
      loinc_login_success respUrl respText = true →
      spec_login_success respUrl respText = true) ∧
    (∀ respText : String,
      strContains (strToLower respText) (strToLower loincUsername) = false →
      loinc_login_success loincLoginUrl respText = false) ∧
    (∀ respText : String,
      strContains (strToLower respText) (strToLower loincUsername) = false →
      all_loinc_login_success loincLoginUrl respText = false) := by
  refine ⟨?_, ?_, ?_⟩
  · intro respUrl respText h
    simp only [loinc_login_success, Bool.or_eq_true] at h
    simp only [spec_login_success, Bool.or_eq_true]
    tauto
  · intro respText h
    simp [loinc_login_success, h]
    decide
  · intro respText h
    simp [all_loinc_login_success, h]
    decide

/-- Witness for C6: a body without the username leaves the login on the
login URL reported as failed by both variants. -/
theorem C6_login_heuristic_witness :
    loinc_login_success loincLoginUrl "session expired" = false ∧
    all_loinc_login_success loincLoginUrl "session expired" = false :=
  ⟨C6_login_heuristic.2.1 "session expired" (by decide),
   C6_login_heuristic.2.2 "session expired" (by decide)⟩

/-- Counterexample to C6 as stated: a response URL that differs from the
login URL but carries no known fragment, with a body not mentioning the
username, satisfies the claimed success disjunction yet the code reports
failure. -/
theorem C6_url_differs_counterexample :
    loinc_login_success "https://loinc.org/home/" "Welcome" = false ∧
    "https://loinc.org/home/" ≠ loincLoginUrl ∧
    spec_login_success "https://loinc.org/home/" "Welcome" = true := by decide

/-- Claim C7 (amended): any anchor whose resolved URL has a path ending in
an allow-listed extension is emitted by the extractor regardless of the
page text, the other anchors or the visited set (file classification is
unconditional); but the classification is not exclusive — the topical
keyword test is an independent `if`, so a URL may satisfy both conditions
and then also enters the engine's page-recursion pass (see the
counterexample). -/
theorem C7_extension_classification :
    (∀ (anchors : List String) (text base : String) (visited : List String)
      (href : String), href ∈ anchors → cmsExtCond (urljoin base href) = true →
      urljoin base href ∈ cms_find_downloadable_links anchors text base visited) ∧
    (∀ (anchors : List String) (text base : String) (visited : List String)
      (href : String), href ∈ anchors → cmsKwCond (urljoin base href) visited = true →
      urljoin base href ∈ cms_find_downloadable_links anchors text base visited) ∧
    (∀ (anchors formActions : List String) (text base : String) (visited : List String)
      (href : String), href ∈ anchors → href ≠ "" →
      loincExtCond (urljoin base href) = true →
      urljoin base href ∈
        loinc_find_downloadable_links anchors formActions text base visited) := by
  refine ⟨?_, ?_, ?_⟩
  · intro anchors text base visited href h hext
    exact cms_find_links_mem anchors text base visited href h (Or.inl hext)
  · intro anchors text base visited href h hkw
    exact cms_find_links_mem anchors text base visited href h (Or.inr hkw)
  · intro anchors formActions text base visited href h hne hext
    exact loinc_find_links_mem anchors formActions text base visited href h hne hext

/-- Witness for C7: the pdf anchor of a cms page is extracted on extension
grounds whatever the page text. -/
theorem C7_extension_classification_witness :
    urljoin "https://www.cms.gov/start" "/hcpcs/codes.pdf" ∈
      cms_find_downloadable_links ["/hcpcs/codes.pdf"] "no links here"
        "https://www.cms.gov/start" [] :=
  C7_extension_classification.1 ["/hcpcs/codes.pdf"] "no links here"
    "https://www.cms.gov/start" [] "/hcpcs/codes.pdf" (by decide) (by decide)

/-- Counterexample to C7 as stated: a URL whose path ends in `.pdf` and
contains the keyword `hcpcs` satisfies the file condition and the
page-candidate condition at once, and its netloc passes the engine's
recursion filter — the classification is not exclusive. -/
theorem C7_nonexclusive_counterexample :
    cmsExtCond hcpcsPdfUrl = true ∧ cmsKwCond hcpcsPdfUrl [] = true ∧
    strContains (urlparse hcpcsPdfUrl).netloc "cms.gov" = true ∧
    hcpcsPdfUrl ∈ cms_find_downloadable_links ["/hcpcs/codes.pdf"] ""
      "https://www.cms.gov/start" [] := by decide

/-- Claim C8: on a page whose only occurrence of a downloadable URL sits in
a script block, `re.findall` with the single-group pattern returns just the
captured extension `pdf`; the `startswith('http')` filter then rejects it,
so both extractors return the empty set even though the raw text does
contain the absolute URL — the secondary raw-text pass can never add a URL,
contradicting its documented purpose. -/
theorem C8_secondary_pass_dead :
    findallUrlExt cmsRegexExts scriptOnlyText = ["pdf"] ∧
    strContains scriptOnlyText "https://www.cms.gov/files/doc.pdf" = true ∧
    cms_find_downloadable_links [] scriptOnlyText "https://www.cms.gov/page" [] = [] ∧
    loinc_find_downloadable_links [] [] scriptOnlyText "https://loinc.org/page" [] = [] := by
  decide

/-- Either a sanitized name is returned, or the fall-back default. -/
theorem sanitize_or_default (x dflt : String) :
    (∃ f, (if (sanitizeFilename x == "") = true then dflt else sanitizeFilename x) =
      sanitizeFilename f) ∨
    (if (sanitizeFilename x == "") = true then dflt else sanitizeFilename x) = dflt := by
  by_cases h : (sanitizeFilename x == "") = true
  · exact Or.inr (by rw [if_pos h])
  · exact Or.inl ⟨x, by rw [if_neg h]⟩

/-- Claim C9 (amended): the sanitizer replaces every character outside
Python's `\w` class plus dot and hyphen with an underscore, so for
ASCII-only inputs the result stays inside `[A-Za-z0-9._-]`, and both
filename derivations end in the sanitizer (the LOINC variant may fall back
to the verbatim default for an empty result); but `\w` is Unicode-aware, so
a non-ASCII word character such as the Latin-1 letter 0xE9 survives (see
the counterexample). -/
theorem C9_sanitize_ascii :
    (∀ s : String, s.toList.all (fun c => decide (c.toNat < 128)) = true →
      (sanitizeFilename s).toList.all sanAllowedChar = true) ∧
    (∀ url dflt : String, ∃ f, cms_get_filename_from_url url dflt = sanitizeFilename f) ∧
    (∀ url dflt : String,
      (∃ f, loinc_get_filename_from_url url dflt = sanitizeFilename f) ∨
      loinc_get_filename_from_url url dflt = dflt) := by
  refine ⟨?_, ?_, ?_⟩
  · intro s hs
    rw [List.all_eq_true] at hs ⊢
    intro c hc
    rw [show (sanitizeFilename s).toList = s.toList.map (fun c =>
      if pythonWordChar c || c == '.' || c == '-' then c else '_') from rfl] at hc
    obtain ⟨a, ha, rfl⟩ := List.mem_map.mp hc
    have ha128 : a.toNat < 128 := by simpa using hs a ha
    by_cases hw : (pythonWordChar a || a == '.' || a == '-') = true
    · rw [if_pos hw]
      rw [Bool.or_eq_true, Bool.or_eq_true] at hw
      rcases hw with (hword | hdot) | hdash
      · rw [pythonWordChar] at hword
        simp only [Bool.or_eq_true, Bool.and_eq_true, beq_iff_eq,
          decide_eq_true_eq] at hword
        rcases hword with
          (((((((((((halnum | hund) | hlatin) | h1) | h2) | h3) | h4) | h5) | h6)
            | h7) | h8) | h9)
        · simp [sanAllowedChar, halnum]
        · simp [sanAllowedChar, hund]
        · exfalso
          have h192 : 192 ≤ a.toNat := hlatin.1.1.1
          omega
        all_goals (exfalso; omega)
      · simp [sanAllowedChar, hdot]
      · simp [sanAllowedChar, hdash]
    · rw [if_neg hw]
      decide
  · intro url dflt
    exact ⟨_, rfl⟩
  · intro url dflt
    exact sanitize_or_default _ dflt

/-- Witness for C9: an ASCII name with a space and a question mark is
sanitized into the claimed alphabet, and the cms derivation factors
through the sanitizer. -/
theorem C9_sanitize_ascii_witness :
    (sanitizeFilename "a b?.pdf").toList.all sanAllowedChar = true ∧
    ∃ f, cms_get_filename_from_url "https://www.cms.gov/files/doc.pdf" "file" =
      sanitizeFilename f :=
  ⟨C9_sanitize_ascii.1 "a b?.pdf" (by decide),
   C9_sanitize_ascii.2.1 "https://www.cms.gov/files/doc.pdf" "file"⟩

/-- Counterexample to C9 as stated: the Latin-1 letter 0xE9 is a Python
word character, so the sanitizer keeps it and a filename derived from a URL
containing it carries a character outside `[A-Za-z0-9._-]`. -/
theorem C9_unicode_counterexample :
    sanitizeFilename (String.mk [Char.ofNat 233]) = String.mk [Char.ofNat 233] ∧
    sanAllowedChar (Char.ofNat 233) = false ∧
    (cms_get_filename_from_url accentedUrl "file").toList.all sanAllowedChar = false := by
  decide

/-- Claim C10: both downloaders add the URL to the Downloaded Set only
after the whole body has been streamed without error — success implies the
oracle returned a full response with no write failure, the set gained
exactly the URL, and the trace gained the fetch followed by all chunk
writes; every non-success (network error, write failure, skip) leaves the
Downloaded Set unchanged, so a failed URL may be retried later in the run. -/
theorem C10_atomic_dedup :
    (∀ (net : Net) (url fp : String) (st : CrawlState),
      (cms_download_file net url fp st).1 = true →
      ∃ ct chunks, net.file url = FileResp.ok ct chunks none ∧
        (cms_download_file net url fp st).2.downloaded = url :: st.downloaded ∧
        (cms_download_file net url fp st).2.trace =
          st.trace ++ Effect.fileFetch url :: chunkWrites fp chunks) ∧
    (∀ (net : Net) (url fp : String) (st : CrawlState),
      (cms_download_file net url fp st).1 = false →
      (cms_download_file net url fp st).2.downloaded = st.downloaded) ∧
    (∀ (net : Net) (url fp : String) (st : CrawlState),
      (loinc_download_file net url fp st).1 = true →
      ∃ ct chunks, net.file url = FileResp.ok ct chunks none ∧
        (loinc_download_file net url fp st).2.downloaded = url :: st.downloaded ∧
        (loinc_download_file net url fp st).2.trace =
          st.trace ++ Effect.fileFetch url :: chunkWrites fp chunks) ∧
    (∀ (net : Net) (url fp : String) (st : CrawlState),
      (loinc_download_file net url fp st).1 = false →
      (loinc_download_file net url fp st).2.downloaded = st.downloaded) := by
  refine ⟨?_, ?_, ?_, ?_⟩
  · intro net url fp st hres
    by_cases hm : url ∈ st.downloaded
    · simp [cms_download_file, hm] at hres
    · rcases hf : net.file url with _ | ⟨ct, chunks, wfa⟩
      · simp [cms_download_file, hm, hf] at hres
      · cases wfa with
        | some i => simp [cms_download_file, hm, hf] at hres
        | none =>
          exact ⟨ct, chunks, rfl, by simp [cms_download_file, hm, hf],
            by simp [cms_download_file, hm, hf]⟩
  · intro net url fp st hres
    by_cases hm : url ∈ st.downloaded
    · simp [cms_download_file, hm]
    · rcases hf : net.file url with _ | ⟨ct, chunks, wfa⟩
      · simp [cms_download_file, hm, hf]
      · cases wfa with
        | some i => simp [cms_download_file, hm, hf]
        | none => simp [cms_download_file, hm, hf] at hres
  · intro net url fp st hres
    by_cases hm : url ∈ st.downloaded
    · simp [loinc_download_file, hm] at hres
    · rcases hf : net.file url with _ | ⟨ct, chunks, wfa⟩
      · simp [loinc_download_file, hm, hf] at hres
      · by_cases hh : strContains (strToLower ct) "text/html" = true ∧ chunks.sum < 10000
        · simp [loinc_download_file, hm, hf, hh] at hres
        · cases wfa with
          | some i => simp [loinc_download_file, hm, hf, hh] at hres
          | none =>
            exact ⟨ct, chunks, rfl, by simp [loinc_download_file, hm, hf, hh],
              by simp [loinc_download_file, hm, hf, hh]⟩
  · intro net url fp st hres
    by_cases hm : url ∈ st.downloaded
    · simp [loinc_download_file, hm]
    · rcases hf : net.file url with _ | ⟨ct, chunks, wfa⟩
      · simp [loinc_download_file, hm, hf]
      · by_cases hh : strContains (strToLower ct) "text/html" = true ∧ chunks.sum < 10000
        · simp [loinc_download_file, hm, hf, hh]
        · cases wfa with
          | some i => simp [loinc_download_file, hm, hf, hh]
          | none => simp [loinc_download_file, hm, hf, hh] at hres

/-- Witness for C10: a skipped small-HTML LOINC download reports `false`
and leaves the Downloaded Set unchanged. -/
theorem C10_atomic_dedup_witness :
    (loinc_download_file smallHtmlFileNet "https://loinc.org/x.zip" "loinc/x.zip"
      emptyState).1 = false ∧
    (loinc_download_file smallHtmlFileNet "https://loinc.org/x.zip" "loinc/x.zip"
      emptyState).2.downloaded = emptyState.downloaded :=
  ⟨by decide, C10_atomic_dedup.2.2.2 smallHtmlFileNet "https://loinc.org/x.zip"
    "loinc/x.zip" emptyState (by decide)⟩
